import Mathlib

/-!
# Verification of the duckhub core against its specification

Shallow embedding of the `duckhub` repository's core data model and
operations, translated from the Rust sources:

* `src/core/graph.rs` — dependency DAG with freshness timestamps,
  upstream/downstream DFS traversal, SQL dependency extraction;
* `src/core/pipeline.rs` — pipeline run state, task scheduling and
  failure cascade;
* `src/core/config/secret.rs` — AES-256-GCM secret vault wrappers;
* `src/core/adapter/file/s3.rs` — object-store listing glob logic;
* `src/core/adapter/file/localfile.rs` — schema validation.

Rust `HashMap<String, _>` values are modelled as association lists
(`List (String × _)`); `DateTime<Utc>` timestamps are abstracted to
`Nat` ticks (no claim depends on the concrete time representation).
-/

namespace Duckhub

/-! ## Graph data model (src/core/graph.rs) -/

/-- A DAG node: `Node { name, updated_at, dependencies }`. The
`DateTime<Utc>` timestamp is abstracted to a `Nat` tick. -/
structure Node where
  name : String
  updated_at : Option Nat
  dependencies : List String
deriving DecidableEq, Inhabited

/-- The dependency graph: `Graph { nodes: HashMap<String, Node> }`,
with the hash map modelled as an association list (the serialized
`project_dir` field is irrelevant to every claim and omitted). -/
structure Graph where
  nodes : List (String × Node)
deriving DecidableEq, Inhabited

/-- Map the value stored under key `k` through `f`, leaving every other
entry alone.  This is the association-list counterpart of the Rust
`if let Some(v) = map.get_mut(k) { *v = f(v) }` idiom used throughout
`graph.rs` and `pipeline.rs`. -/
def updateEntry (l : List (String × α)) (k : String) (f : α → α) : List (String × α) :=
  l.map (fun q => if q.1 = k then (q.1, f q.2) else q)

/-- Look up the value stored under key `k` (Rust `map.get(k)`). -/
def findValue (l : List (String × α)) (k : String) : Option α :=
  (l.find? (fun q => q.1 = k)).map (·.2)

/-- `Graph::get_node` -/
def Graph.get_node (g : Graph) (name : String) : Option Node :=
  findValue g.nodes name

/-- `Graph::has_node` -/
def Graph.has_node (g : Graph) (name : String) : Bool :=
  (g.get_node name).isSome

/-- `Graph::reset_updated_at`: `updated_at = None` on `name` if present. -/
def Graph.reset_updated_at (g : Graph) (name : String) : Graph :=
  { g with nodes := updateEntry g.nodes name (fun nd => { nd with updated_at := none }) }

/-- `Graph::update`: `updated_at = Some(Utc::now())` on `name` if
present; the current time is passed explicitly as `now`. -/
def Graph.update (g : Graph) (name : String) (now : Nat) : Graph :=
  { g with nodes := updateEntry g.nodes name (fun nd => { nd with updated_at := some now }) }

/-- `Graph::set_current_time`: identical body to `Graph::update`. -/
def Graph.set_current_time (g : Graph) (name : String) (now : Nat) : Graph :=
  { g with nodes := updateEntry g.nodes name (fun nd => { nd with updated_at := some now }) }

/-- `Graph::update_dependencies`: replace the edge set of `name` if present. -/
def Graph.update_dependencies (g : Graph) (name : String) (dependencies : List String) : Graph :=
  { g with nodes := updateEntry g.nodes name (fun nd => { nd with dependencies := dependencies }) }

/-- `Graph::delete_node` -/
def Graph.delete_node (g : Graph) (name : String) : Graph :=
  { g with nodes := g.nodes.filter (fun q => ¬ q.1 = name) }

/-- `Graph::create_node`: insert `Node { name, updated_at: None,
dependencies: [] }`, then `update_dependencies`. -/
def Graph.create_node (g : Graph) (name : String) (dependencies : List String) : Graph :=
  let g' : Graph :=
    { g with nodes := (g.delete_node name).nodes ++ [(name, ⟨name, none, []⟩)] }
  g'.update_dependencies name dependencies

/-- `Graph::direct_downstream`: names of the nodes whose `dependencies`
contain `name`. -/
def Graph.direct_downstream (g : Graph) (name : String) : List String :=
  (g.nodes.map (·.2)).filterMap
    (fun nd => if name ∈ nd.dependencies then some nd.name else none)

/-- Dependency list of `name`, or `[]` when the node is absent: this is
the `graph.nodes.get(&task_name).map(|n| &n.dependencies).unwrap_or(&empty)`
idiom of `pop_task`, and also the successor map of `Graph::all_upstream`. -/
def Graph.nodeDeps (g : Graph) (name : String) : List String :=
  match g.get_node name with
  | some nd => nd.dependencies
  | none => []

/-! ### Basic lemmas on the association-list operations -/

theorem findValue_updateEntry (l : List (String × α)) (k m : String) (f : α → α) :
    findValue (updateEntry l k f) m =
      if m = k then (findValue l m).map f else findValue l m := by
  induction l with
  | nil => simp [findValue, updateEntry]
  | cons q rest ih =>
    simp only [findValue, updateEntry, List.map_cons, List.find?_cons] at *
    by_cases hq : q.1 = k
    · by_cases hm : q.1 = m
      · subst hm
        simp [hq, List.find?_cons, if_pos rfl]
      · have h1 : ((q.1, f q.2).1 = m) = False := by simp [hq] at *; simp [hm]
        simp only [if_pos hq]
        simp only [List.find?_cons, h1]
        by_cases hmk : m = k
        · subst hmk
          have : (q.1 = m) = False := by simp [hm]
          simp [this] at ih ⊢
          simpa [findValue, updateEntry] using ih
        · have : (q.1 = m) = False := by simp [hm]
          simp [this] at ih ⊢
          simpa [findValue, updateEntry, hmk] using ih
    · simp only [if_neg hq]
      by_cases hm : q.1 = m
      · subst hm
        by_cases hmk : q.1 = k
        · exact absurd hmk hq
        · simp [List.find?_cons, hmk, findValue]
      · have : (q.1 = m) = False := by simp [hm]
        simp only [List.find?_cons, this, cond_false]
        by_cases hmk : m = k
        · subst hmk
          simpa [findValue, updateEntry] using ih
        · simpa [findValue, updateEntry, hmk] using ih

theorem findValue_none_updateEntry (l : List (String × α)) (k : String) (f : α → α)
    (h : findValue l k = none) : updateEntry l k f = l := by
  induction l with
  | nil => rfl
  | cons q rest ih =>
    simp only [findValue, List.find?_cons] at h
    by_cases hq : q.1 = k
    · simp [hq] at h
    · have : (q.1 = k) = False := by simp [hq]
      simp [this] at h
      simp only [updateEntry, List.map_cons, if_neg hq]
      have := ih (by simpa [findValue] using h)
      simpa [updateEntry] using congrArg (q :: ·) this

/-! ## Generic visited-set DFS

`Graph::all_downstream` and `Graph::all_upstream` are the same
recursion over a successor map: visit each not-yet-visited successor,
inserting it into the visited set, pushing it onto the result, and
recursing.  We factor that recursion out, parameterized by the
successor map `succs`; the Rust functions are recovered by
instantiating `succs`.  The Rust recursion terminates because the
visited set grows inside a finite node set; here a fuel argument plays
that role (instantiated with `g.nodes.length + 1`, which the adequacy
lemmas below prove sufficient).  A node-level call at fuel `0` returns
`([], visited)`, which coincides with the Rust behavior whenever the
node has no successors (in particular on absent nodes in the upstream
instance). -/

/-- The `for dep in …` loop body shared by both Rust traversals,
parameterized by the recursive node visit `next`. -/
def dfsList0 (next : String → List String → List String × List String) :
    List String → List String → List String × List String
  | [], visited => ([], visited)
  | d :: ds, visited =>
    if d ∈ visited then dfsList0 next ds visited
    else
      let p1 := next d (d :: visited)
      let p2 := dfsList0 next ds p1.2
      (d :: (p1.1 ++ p2.1), p2.2)

/-- Node-level DFS visit with fuel (structural recursion on the fuel,
so that the kernel can evaluate it on concrete graphs). -/
def dfsNode (succs : String → List String) : Nat → String → List String →
    List String × List String
  | 0, _, visited => ([], visited)
  | fuel + 1, name, visited =>
    dfsList0 (fun d w => dfsNode succs fuel d w) (succs name) visited

/-- List-level DFS over a pending successor list. -/
def dfsList (succs : String → List String) (fuel : Nat) (l visited : List String) :
    List String × List String :=
  dfsList0 (fun d w => dfsNode succs fuel d w) l visited

theorem dfsNode_zero (succs : String → List String) (n : String) (v : List String) :
    dfsNode succs 0 n v = ([], v) := rfl

theorem dfsNode_succ (succs : String → List String) (fuel : Nat) (n : String)
    (v : List String) : dfsNode succs (fuel + 1) n v = dfsList succs fuel (succs n) v := rfl

theorem dfsList_nil (succs : String → List String) (fuel : Nat) (v : List String) :
    dfsList succs fuel [] v = ([], v) := rfl

theorem dfsList_cons (succs : String → List String) (fuel : Nat) (d : String)
    (ds v : List String) :
    dfsList succs fuel (d :: ds) v =
      if d ∈ v then dfsList succs fuel ds v
      else
        (d :: ((dfsNode succs fuel d (d :: v)).1 ++
            (dfsList succs fuel ds (dfsNode succs fuel d (d :: v)).2).1),
          (dfsList succs fuel ds (dfsNode succs fuel d (d :: v)).2).2) := by
  show dfsList0 _ (d :: ds) v = _
  rw [dfsList0]
  rfl

/-- A node-level DFS call on a successor-free name is the identity on
the visited set, at every fuel (this is exactly what the Rust code does
on such a name). -/
theorem dfsNode_nil_succs (succs : String → List String) (fuel : Nat) (n : String)
    (v : List String) (h : succs n = []) : dfsNode succs fuel n v = ([], v) := by
  cases fuel with
  | zero => simp [dfsNode_zero]
  | succ fuel => simp [dfsNode_succ, h, dfsList_nil]

/-- The visited set only grows: anything visited before a DFS call is
still visited after it. -/
theorem dfs_visited_mono (succs : String → List String) :
    ∀ fuel : Nat,
      (∀ n v, ∀ x ∈ v, x ∈ (dfsNode succs fuel n v).2) ∧
      (∀ l v, ∀ x ∈ v, x ∈ (dfsList succs fuel l v).2) := by
  intro fuel
  induction fuel with
  | zero =>
    have hnode : ∀ n v, ∀ x ∈ v, x ∈ (dfsNode succs 0 n v).2 := by
      intro n v x hx; simpa [dfsNode_zero] using hx
    refine ⟨hnode, ?_⟩
    intro l
    induction l with
    | nil => intro v x hx; simpa [dfsList_nil] using hx
    | cons d ds ih =>
      intro v x hx
      by_cases hd : d ∈ v
      · simpa [dfsList_cons, hd] using ih v x hx
      · simp [dfsList_cons, if_neg hd, dfsNode_zero]
        exact ih (d :: v) x (List.mem_cons_of_mem _ hx)
  | succ fuel ih =>
    have hnode : ∀ n v, ∀ x ∈ v, x ∈ (dfsNode succs (fuel + 1) n v).2 := by
      intro n v x hx
      simp only [dfsNode_succ]
      exact ih.2 (succs n) v x hx
    refine ⟨hnode, ?_⟩
    intro l
    induction l with
    | nil => intro v x hx; simpa [dfsList_nil] using hx
    | cons d ds ihl =>
      intro v x hx
      by_cases hd : d ∈ v
      · simpa [dfsList_cons, hd] using ihl v x hx
      · simp [dfsList_cons, if_neg hd]
        exact ihl _ x (hnode d (d :: v) x (List.mem_cons_of_mem _ hx))

theorem dfsNode_visited_mono (succs : String → List String) (fuel : Nat) (n : String)
    (v : List String) {x : String} (hx : x ∈ v) : x ∈ (dfsNode succs fuel n v).2 :=
  (dfs_visited_mono succs fuel).1 n v x hx

theorem dfsList_visited_mono (succs : String → List String) (fuel : Nat) (l : List String)
    (v : List String) {x : String} (hx : x ∈ v) : x ∈ (dfsList succs fuel l v).2 :=
  (dfs_visited_mono succs fuel).2 l v x hx

/-- The outgoing visited set is the incoming one plus the result list,
and the result is disjoint from the incoming visited set. -/
theorem dfs_visited_eq (succs : String → List String) :
    ∀ fuel : Nat,
      (∀ n v,
        (∀ x ∈ (dfsNode succs fuel n v).2, x ∈ (dfsNode succs fuel n v).1 ∨ x ∈ v) ∧
        (∀ x ∈ (dfsNode succs fuel n v).1, x ∈ (dfsNode succs fuel n v).2 ∧ x ∉ v)) ∧
      (∀ l v,
        (∀ x ∈ (dfsList succs fuel l v).2, x ∈ (dfsList succs fuel l v).1 ∨ x ∈ v) ∧
        (∀ x ∈ (dfsList succs fuel l v).1, x ∈ (dfsList succs fuel l v).2 ∧ x ∉ v)) := by
  have main : ∀ fuel : Nat,
      (∀ l v,
        (∀ x ∈ (dfsList succs fuel l v).2, x ∈ (dfsList succs fuel l v).1 ∨ x ∈ v) ∧
        (∀ x ∈ (dfsList succs fuel l v).1, x ∈ (dfsList succs fuel l v).2 ∧ x ∉ v)) := by
    intro fuel
    induction fuel with
    | zero =>
      intro l
      induction l with
      | nil =>
        intro v
        constructor
        · intro x hx; right; simpa [dfsList_nil] using hx
        · intro x hx; simp [dfsList_nil] at hx
      | cons d ds ih =>
        intro v
        by_cases hd : d ∈ v
        · constructor
          · intro x hx
            rcases (ih v).1 x (by simpa [dfsList_cons, hd] using hx) with h | h
            · left; simpa [dfsList_cons, hd] using h
            · right; exact h
          · intro x hx
            have hx' := (ih v).2 x (by simpa [dfsList_cons, hd] using hx)
            exact ⟨by simpa [dfsList_cons, hd] using hx'.1, hx'.2⟩
        · have heq1 : (dfsList succs 0 (d :: ds) v).1 =
              d :: (dfsList succs 0 ds (d :: v)).1 := by
            simp [dfsList_cons, if_neg hd, dfsNode_zero]
          have heq2 : (dfsList succs 0 (d :: ds) v).2 =
              (dfsList succs 0 ds (d :: v)).2 := by
            simp [dfsList_cons, if_neg hd, dfsNode_zero]
          constructor
          · intro x hx
            rw [heq2] at hx
            rcases (ih (d :: v)).1 x hx with h | h
            · left; rw [heq1]; exact List.mem_cons_of_mem _ h
            · rcases List.mem_cons.mp h with h' | h'
              · left; rw [heq1]; exact h' ▸ List.mem_cons_self _ _
              · right; exact h'
          · intro x hx
            rw [heq1] at hx
            rcases List.mem_cons.mp hx with h' | h'
            · subst h'
              refine ⟨?_, hd⟩
              rw [heq2]
              exact dfsList_visited_mono succs 0 ds (x :: v) (List.mem_cons_self _ _)
            · have hx' := (ih (d :: v)).2 x h'
              refine ⟨by rw [heq2]; exact hx'.1, fun hmem => hx'.2 (List.mem_cons_of_mem _ hmem)⟩
    | succ fuel ihf =>
      have hnode : ∀ n v,
          (∀ x ∈ (dfsNode succs (fuel + 1) n v).2, x ∈ (dfsNode succs (fuel + 1) n v).1 ∨ x ∈ v) ∧
          (∀ x ∈ (dfsNode succs (fuel + 1) n v).1, x ∈ (dfsNode succs (fuel + 1) n v).2 ∧ x ∉ v) := by
        intro n v
        simpa only [dfsNode_succ] using ihf (succs n) v
      intro l
      induction l with
      | nil =>
        intro v
        constructor
        · intro x hx; right; simpa [dfsList_nil] using hx
        · intro x hx; simp [dfsList_nil] at hx
      | cons d ds ih =>
        intro v
        by_cases hd : d ∈ v
        · constructor
          · intro x hx
            rcases (ih v).1 x (by simpa [dfsList_cons, hd] using hx) with h | h
            · left; simpa [dfsList_cons, hd] using h
            · right; exact h
          · intro x hx
            have hx' := (ih v).2 x (by simpa [dfsList_cons, hd] using hx)
            exact ⟨by simpa [dfsList_cons, hd] using hx'.1, hx'.2⟩
        · have heq1 : (dfsList succs (fuel + 1) (d :: ds) v).1 =
              d :: ((dfsNode succs (fuel + 1) d (d :: v)).1 ++
                (dfsList succs (fuel + 1) ds (dfsNode succs (fuel + 1) d (d :: v)).2).1) := by
            simp [dfsList_cons, if_neg hd]
          have heq2 : (dfsList succs (fuel + 1) (d :: ds) v).2 =
              (dfsList succs (fuel + 1) ds (dfsNode succs (fuel + 1) d (d :: v)).2).2 := by
            simp [dfsList_cons, if_neg hd]
          constructor
          · intro x hx
            rw [heq2] at hx
            rcases (ih _).1 x hx with h | h
            · left; rw [heq1]
              exact List.mem_cons_of_mem _ (List.mem_append_right _ h)
            · rcases (hnode d (d :: v)).1 x h with h' | h'
              · left; rw [heq1]
                exact List.mem_cons_of_mem _ (List.mem_append_left _ h')
              · rcases List.mem_cons.mp h' with h'' | h''
                · left; rw [heq1]; exact h'' ▸ List.mem_cons_self _ _
                · right; exact h''
          · intro x hx
            rw [heq1] at hx
            rcases List.mem_cons.mp hx with h' | h'
            · subst h'
              refine ⟨?_, hd⟩
              rw [heq2]
              exact dfsList_visited_mono succs _ ds _
                (dfsNode_visited_mono succs _ x _ (List.mem_cons_self _ _))
            · rcases List.mem_append.mp h' with h'' | h''
              · have hx' := (hnode d (d :: v)).2 x h''
                refine ⟨?_, fun hmem => hx'.2 (List.mem_cons_of_mem _ hmem)⟩
                rw [heq2]
                exact dfsList_visited_mono succs _ ds _ hx'.1
              · have hx' := (ih _).2 x h''
                refine ⟨by rw [heq2]; exact hx'.1, ?_⟩
                intro hmem
                exact hx'.2 (dfsNode_visited_mono succs _ d _ (List.mem_cons_of_mem _ hmem))
  intro fuel
  refine ⟨?_, main fuel⟩
  intro n v
  cases fuel with
  | zero =>
    constructor
    · intro x hx; right; simpa [dfsNode_zero] using hx
    · intro x hx; simp [dfsNode_zero] at hx
  | succ fuel => simpa only [dfsNode_succ] using main fuel (succs n) v

/-- Soundness: every name in the DFS result is reachable (in one or
more `succs` steps) from the start node; the list-level statement is
relative to the pending successor list. -/
theorem dfs_sound (succs : String → List String) :
    ∀ fuel : Nat,
      (∀ n v, ∀ x ∈ (dfsNode succs fuel n v).1,
        Relation.TransGen (fun a b => b ∈ succs a) n x) ∧
      (∀ l v, ∀ x ∈ (dfsList succs fuel l v).1,
        ∃ d ∈ l, x = d ∨ Relation.TransGen (fun a b => b ∈ succs a) d x) := by
  have step : ∀ fuel : Nat,
      (∀ l v, ∀ x ∈ (dfsList succs fuel l v).1,
        ∃ d ∈ l, x = d ∨ Relation.TransGen (fun a b => b ∈ succs a) d x) →
      (∀ n v, ∀ x ∈ (dfsNode succs (fuel + 1) n v).1,
        Relation.TransGen (fun a b => b ∈ succs a) n x) := by
    intro fuel hlist n v x hx
    simp only [dfsNode_succ] at hx
    obtain ⟨d, hdmem, hcase⟩ := hlist (succs n) v x hx
    rcases hcase with rfl | htrans
    · exact Relation.TransGen.single hdmem
    · exact Relation.TransGen.head hdmem htrans
  intro fuel
  induction fuel with
  | zero =>
    have hnode : ∀ n v, ∀ x ∈ (dfsNode succs 0 n v).1,
        Relation.TransGen (fun a b => b ∈ succs a) n x := by
      intro n v x hx; simp [dfsNode_zero] at hx
    refine ⟨hnode, ?_⟩
    intro l
    induction l with
    | nil => intro v x hx; simp [dfsList_nil] at hx
    | cons d ds ih =>
      intro v x hx
      by_cases hd : d ∈ v
      · obtain ⟨d', hd', hc⟩ := ih v x (by simpa [dfsList_cons, hd] using hx)
        exact ⟨d', List.mem_cons_of_mem _ hd', hc⟩
      · simp [dfsList_cons, if_neg hd, dfsNode_zero] at hx
        rcases hx with rfl | hx'
        · exact ⟨x, List.mem_cons_self _ _, Or.inl rfl⟩
        · obtain ⟨d', hd', hc⟩ := ih (d :: v) x hx'
          exact ⟨d', List.mem_cons_of_mem _ hd', hc⟩
  | succ fuel ih =>
    have hnode := step fuel ih.2
    refine ⟨hnode, ?_⟩
    intro l
    induction l with
    | nil => intro v x hx; simp [dfsList_nil] at hx
    | cons d ds ihl =>
      intro v x hx
      by_cases hd : d ∈ v
      · obtain ⟨d', hd', hc⟩ := ihl v x (by simpa [dfsList_cons, hd] using hx)
        exact ⟨d', List.mem_cons_of_mem _ hd', hc⟩
      · simp [dfsList_cons, if_neg hd] at hx
        rcases hx with rfl | hx' | hx''
        · exact ⟨x, List.mem_cons_self _ _, Or.inl rfl⟩
        · exact ⟨d, List.mem_cons_self _ _, Or.inr (hnode d (d :: v) x hx')⟩
        · obtain ⟨d', hd', hc⟩ := ihl _ x hx''
          exact ⟨d', List.mem_cons_of_mem _ hd', hc⟩

/-- If the visited list only grows (element-wise), the count of
not-yet-visited candidate names does not increase. -/
theorem remaining_card_mono (P v v' : List String) (h : ∀ x ∈ v, x ∈ v') :
    (P.toFinset \ v'.toFinset).card ≤ (P.toFinset \ v.toFinset).card := by
  refine Finset.card_le_card (Finset.sdiff_subset_sdiff (le_refl _) ?_)
  intro x hx
  exact List.mem_toFinset.mpr (h x (List.mem_toFinset.mp hx))

/-- Closure: with enough fuel (more than the number of unvisited
candidate names), every successor of the start node and of every result
element ends up in the final visited set.  `P` over-approximates the
names with a nonempty successor list. -/
theorem dfs_closed (succs : String → List String) (P : List String)
    (hP : ∀ m d, d ∈ succs m → succs d = [] ∨ d ∈ P) :
    ∀ fuel : Nat,
      (∀ n v, (P.toFinset \ v.toFinset).card < fuel →
        (∀ x ∈ succs n, x ∈ (dfsNode succs fuel n v).2) ∧
        (∀ y ∈ (dfsNode succs fuel n v).1, ∀ x ∈ succs y, x ∈ (dfsNode succs fuel n v).2)) ∧
      (∀ l v, (P.toFinset \ v.toFinset).card ≤ fuel → (∀ d ∈ l, succs d = [] ∨ d ∈ P) →
        (∀ d ∈ l, d ∈ (dfsList succs fuel l v).2) ∧
        (∀ y ∈ (dfsList succs fuel l v).1, ∀ x ∈ succs y, x ∈ (dfsList succs fuel l v).2)) := by
  intro fuel
  induction fuel with
  | zero =>
    have hnode : ∀ n v, (P.toFinset \ v.toFinset).card < 0 →
        (∀ x ∈ succs n, x ∈ (dfsNode succs 0 n v).2) ∧
        (∀ y ∈ (dfsNode succs 0 n v).1, ∀ x ∈ succs y, x ∈ (dfsNode succs 0 n v).2) := by
      intro n v h; exact absurd h (Nat.not_lt_zero _)
    refine ⟨hnode, ?_⟩
    intro l
    induction l with
    | nil =>
      intro v _ _
      exact ⟨by intro d h; simp at h, by intro y h; simp [dfsList_nil] at h⟩
    | cons d ds ih =>
      intro v hcard hl
      by_cases hd : d ∈ v
      · have hrest := ih v hcard (fun d' hd' => hl d' (List.mem_cons_of_mem _ hd'))
        constructor
        · intro d' hd'
          rcases List.mem_cons.mp hd' with rfl | h'
          · simpa [dfsList_cons, hd] using dfsList_visited_mono succs 0 ds v hd
          · simpa [dfsList_cons, hd] using hrest.1 d' h'
        · intro y hy
          exact by simpa [dfsList_cons, hd] using hrest.2 y (by simpa [dfsList_cons, hd] using hy)
      · -- at fuel 0 an unvisited head must have an empty successor list
        have hdnil : succs d = [] := by
          rcases hl d (List.mem_cons_self _ _) with h | h
          · exact h
          · exfalso
            have hdmem : d ∈ P.toFinset \ v.toFinset :=
              Finset.mem_sdiff.mpr ⟨List.mem_toFinset.mpr h, fun hc => hd (List.mem_toFinset.mp hc)⟩
            have : 0 < (P.toFinset \ v.toFinset).card := Finset.card_pos.mpr ⟨d, hdmem⟩
            omega
        have heq1 : (dfsList succs 0 (d :: ds) v).1 =
            d :: (dfsList succs 0 ds (d :: v)).1 := by
          simp [dfsList_cons, if_neg hd, dfsNode_zero]
        have heq2 : (dfsList succs 0 (d :: ds) v).2 =
            (dfsList succs 0 ds (d :: v)).2 := by
          simp [dfsList_cons, if_neg hd, dfsNode_zero]
        have hcard' : (P.toFinset \ (d :: v).toFinset).card ≤ 0 :=
          le_trans (remaining_card_mono P v (d :: v) (fun x hx => List.mem_cons_of_mem _ hx)) hcard
        have hrest := ih (d :: v) hcard' (fun d' hd' => hl d' (List.mem_cons_of_mem _ hd'))
        constructor
        · intro d' hd'
          rcases List.mem_cons.mp hd' with rfl | h'
          · rw [heq2]
            exact dfsList_visited_mono succs 0 ds (d' :: v) (List.mem_cons_self _ _)
          · rw [heq2]; exact hrest.1 d' h'
        · intro y hy x hx
          rw [heq1] at hy
          rcases List.mem_cons.mp hy with rfl | hy'
          · rw [hdnil] at hx; simp at hx
          · rw [heq2]; exact hrest.2 y hy' x hx
  | succ fuel ihf =>
    have hnode : ∀ n v, (P.toFinset \ v.toFinset).card < fuel + 1 →
        (∀ x ∈ succs n, x ∈ (dfsNode succs (fuel + 1) n v).2) ∧
        (∀ y ∈ (dfsNode succs (fuel + 1) n v).1, ∀ x ∈ succs y,
          x ∈ (dfsNode succs (fuel + 1) n v).2) := by
      intro n v hcard
      have hcard' : (P.toFinset \ v.toFinset).card ≤ fuel := Nat.lt_succ_iff.mp hcard
      have hlist := ihf.2 (succs n) v hcard' (fun d hd => hP n d hd)
      exact ⟨by simpa only [dfsNode_succ] using hlist.1, by simpa only [dfsNode_succ] using hlist.2⟩
    refine ⟨hnode, ?_⟩
    intro l
    induction l with
    | nil =>
      intro v _ _
      exact ⟨by intro d h; simp at h, by intro y h; simp [dfsList_nil] at h⟩
    | cons d ds ih =>
      intro v hcard hl
      by_cases hd : d ∈ v
      · have hrest := ih v hcard (fun d' hd' => hl d' (List.mem_cons_of_mem _ hd'))
        constructor
        · intro d' hd'
          rcases List.mem_cons.mp hd' with rfl | h'
          · simpa [dfsList_cons, hd] using dfsList_visited_mono succs (fuel + 1) ds v hd
          · simpa [dfsList_cons, hd] using hrest.1 d' h'
        · intro y hy
          exact by simpa [dfsList_cons, hd] using hrest.2 y (by simpa [dfsList_cons, hd] using hy)
      · have heq1 : (dfsList succs (fuel + 1) (d :: ds) v).1 =
            d :: ((dfsNode succs (fuel + 1) d (d :: v)).1 ++
              (dfsList succs (fuel + 1) ds (dfsNode succs (fuel + 1) d (d :: v)).2).1) := by
          simp [dfsList_cons, if_neg hd]
        have heq2 : (dfsList succs (fuel + 1) (d :: ds) v).2 =
            (dfsList succs (fuel + 1) ds (dfsNode succs (fuel + 1) d (d :: v)).2).2 := by
          simp [dfsList_cons, if_neg hd]
        -- closure facts for the recursive node visit of `d`
        have hinner : (∀ x ∈ succs d, x ∈ (dfsNode succs (fuel + 1) d (d :: v)).2) ∧
            (∀ y ∈ (dfsNode succs (fuel + 1) d (d :: v)).1, ∀ x ∈ succs y,
              x ∈ (dfsNode succs (fuel + 1) d (d :: v)).2) := by
          rcases hl d (List.mem_cons_self _ _) with hdnil | hdP
          · rw [dfsNode_nil_succs succs (fuel + 1) d (d :: v) hdnil]
            constructor
            · intro x hx; rw [hdnil] at hx; simp at hx
            · intro y hy; simp at hy
          · have hdmem : d ∈ P.toFinset \ v.toFinset :=
              Finset.mem_sdiff.mpr
                ⟨List.mem_toFinset.mpr hdP, fun hc => hd (List.mem_toFinset.mp hc)⟩
            have hpos : 0 < (P.toFinset \ v.toFinset).card := Finset.card_pos.mpr ⟨d, hdmem⟩
            have herase : P.toFinset \ (d :: v).toFinset = (P.toFinset \ v.toFinset).erase d := by
              rw [List.toFinset_cons, Finset.sdiff_insert]
            have hcard' : (P.toFinset \ (d :: v).toFinset).card < fuel + 1 := by
              rw [herase, Finset.card_erase_of_mem hdmem]
              omega
            exact hnode d (d :: v) hcard'
        have hsub1 : ∀ x ∈ (d :: v), x ∈ (dfsNode succs (fuel + 1) d (d :: v)).2 :=
          fun x hx => dfsNode_visited_mono succs _ d _ hx
        have hcard2 : (P.toFinset \ (dfsNode succs (fuel + 1) d (d :: v)).2.toFinset).card ≤
            fuel + 1 :=
          le_trans (remaining_card_mono P v _
            (fun x hx => hsub1 x (List.mem_cons_of_mem _ hx))) hcard
        have hrest := ih (dfsNode succs (fuel + 1) d (d :: v)).2 hcard2
          (fun d' hd' => hl d' (List.mem_cons_of_mem _ hd'))
        constructor
        · intro d' hd'
          rcases List.mem_cons.mp hd' with rfl | h'
          · rw [heq2]
            exact dfsList_visited_mono succs _ ds _ (hsub1 d' (List.mem_cons_self _ _))
          · rw [heq2]; exact hrest.1 d' h'
        · intro y hy x hx
          rw [heq1] at hy
          rw [heq2]
          rcases List.mem_cons.mp hy with rfl | hy'
          · exact dfsList_visited_mono succs _ ds _ (hinner.1 x hx)
          · rcases List.mem_append.mp hy' with h1 | h2
            · exact dfsList_visited_mono succs _ ds _ (hinner.2 y h1 x hx)
            · exact hrest.2 y h2 x hx

/-- Completeness: with enough fuel and a visited set contained in the
singleton of the start node, the final visited set contains every node
reachable from the start. -/
theorem dfs_complete (succs : String → List String) (P : List String)
    (hP : ∀ m d, d ∈ succs m → succs d = [] ∨ d ∈ P)
    (fuel : Nat) (n : String) (v₀ : List String)
    (hcard : (P.toFinset \ v₀.toFinset).card < fuel)
    (hv₀ : ∀ y ∈ v₀, y = n) :
    ∀ x, Relation.TransGen (fun a b => b ∈ succs a) n x →
      x ∈ (dfsNode succs fuel n v₀).2 := by
  intro x hx
  have hclosed := (dfs_closed succs P hP fuel).1 n v₀ hcard
  induction hx with
  | single h => exact hclosed.1 _ h
  | tail hyx hedge ih =>
    rcases ((dfs_visited_eq succs fuel).1 n v₀).1 _ ih with hres | hv
    · exact hclosed.2 _ hres _ hedge
    · have hyn := hv₀ _ hv
      rw [hyn] at hedge
      exact hclosed.1 _ hedge

/-! ## Graph traversal (Graph::all_downstream / all_upstream) -/

/-- Lexicographic comparison of character lists by code point; this is
extensionally the order in which Rust's `Vec<String>::sort` arranges
strings (UTF-8 byte order equals code-point order). -/
def lexLe : List Char → List Char → Bool
  | [], _ => true
  | _ :: _, [] => false
  | a :: as, b :: bs =>
    if a.toNat < b.toNat then true
    else if b.toNat < a.toNat then false
    else lexLe as bs

def strLe (a b : String) : Bool := lexLe a.data b.data

/-- `Graph::all_downstream` is the DFS with successor map
`direct_downstream`. -/
def Graph.all_downstream (g : Graph) (fuel : Nat) (name : String)
    (visited : List String) : List String × List String :=
  dfsNode g.direct_downstream fuel name visited

/-- `Graph::downstream`: DFS from `name` with an empty visited set,
then sort.  The fuel `g.nodes.length + 1` is sufficient (adequacy is
proved below); Rust needs no fuel because its visited set grows inside
the finite node set. -/
def Graph.downstream (g : Graph) (name : String) : List String :=
  List.insertionSort (fun a b => strLe a b = true)
    (g.all_downstream (g.nodes.length + 1) name []).1

/-- `Graph::all_upstream` is the DFS with successor map `nodeDeps`
(the dependency list, `[]` on an absent node exactly as in Rust). -/
def Graph.all_upstream (g : Graph) (fuel : Nat) (name : String)
    (visited : List String) : List String × List String :=
  dfsNode g.nodeDeps fuel name visited

/-- `Graph::upstream` -/
def Graph.upstream (g : Graph) (name : String) : List String :=
  (g.all_upstream (g.nodes.length + 1) name []).1

/-- `Graph::update_node`: reset `name`, then reset every member of
`downstream(name)` (computed, as in Rust, on the already-reset graph). -/
def Graph.update_node (g : Graph) (name : String) : Graph :=
  let g1 := g.reset_updated_at name
  (g1.downstream name).foldl (fun acc n => acc.reset_updated_at n) g1

/-- `b` is a transitive downstream of `a`: one or more steps of the
"some node named `b` lists `a` among its dependencies" edge. -/
def DownReach (g : Graph) : String → String → Prop :=
  Relation.TransGen (fun a b => b ∈ g.direct_downstream a)

/-- `b` is a transitive upstream of `a`: one or more steps of the
"`b` is listed among `a`'s dependencies" edge. -/
def UpReach (g : Graph) : String → String → Prop :=
  Relation.TransGen (fun a b => b ∈ g.nodeDeps a)

theorem mem_direct_downstream (g : Graph) (a x : String) :
    x ∈ g.direct_downstream a ↔
      ∃ q ∈ g.nodes, q.2.name = x ∧ a ∈ q.2.dependencies := by
  simp only [Graph.direct_downstream, List.mem_filterMap, List.mem_map]
  constructor
  · rintro ⟨nd, ⟨q, hq, rfl⟩, hnd⟩
    by_cases hmem : a ∈ q.2.dependencies
    · rw [if_pos hmem] at hnd
      exact ⟨q, hq, Option.some_injective _ hnd, hmem⟩
    · rw [if_neg hmem] at hnd
      exact absurd hnd (Option.noConfusion)
  · rintro ⟨q, hq, rfl, hmem⟩
    exact ⟨q.2, ⟨q, hq, rfl⟩, if_pos hmem⟩

/-- Every direct-downstream name is the name of some stored node. -/
theorem direct_downstream_subset_names (g : Graph) (m d : String)
    (h : d ∈ g.direct_downstream m) : d ∈ g.nodes.map (fun q => q.2.name) := by
  obtain ⟨q, hq, rfl, _⟩ := (mem_direct_downstream g m d).mp h
  exact List.mem_map.mpr ⟨q, hq, rfl⟩

/-- A name with a nonempty dependency list is a key of the node map. -/
theorem nodeDeps_nonempty_mem_keys (g : Graph) (d : String)
    (h : ¬ g.nodeDeps d = []) : d ∈ g.nodes.map (fun q => q.1) := by
  unfold Graph.nodeDeps at h
  cases hd : g.get_node d with
  | none => rw [hd] at h; exact absurd rfl h
  | some nd =>
    unfold Graph.get_node findValue at hd
    obtain ⟨q, hfind, _⟩ := Option.map_eq_some'.mp hd
    have hq := List.mem_of_find?_eq_some hfind
    have hpred := List.find?_some hfind
    simp only [decide_eq_true_eq] at hpred
    exact List.mem_map.mpr ⟨q, hq, hpred⟩

/-- C1 helper: membership in `Graph::downstream` coincides with
transitive downstream reachability. -/
theorem Graph.mem_downstream_iff (g : Graph) (n x : String) :
    x ∈ g.downstream n ↔ DownReach g n x := by
  have hmem : x ∈ g.downstream n ↔
      x ∈ (g.all_downstream (g.nodes.length + 1) n []).1 :=
    (List.perm_insertionSort _ _).mem_iff
  rw [hmem]
  unfold Graph.all_downstream
  constructor
  · intro hx
    exact (dfs_sound g.direct_downstream _).1 n [] x hx
  · intro hx
    have hP : ∀ m d, d ∈ g.direct_downstream m →
        g.direct_downstream d = [] ∨ d ∈ g.nodes.map (fun q => q.2.name) :=
      fun m d hd => Or.inr (direct_downstream_subset_names g m d hd)
    have hcard : ((g.nodes.map (fun q => q.2.name)).toFinset \
        ([] : List String).toFinset).card < g.nodes.length + 1 := by
      have h1 := List.toFinset_card_le (g.nodes.map (fun q => q.2.name))
      simp only [List.toFinset_nil, Finset.sdiff_empty, List.length_map] at h1 ⊢
      omega
    have hv := dfs_complete g.direct_downstream _ hP _ n [] hcard
      (by intro y hy; simp at hy) x hx
    rcases ((dfs_visited_eq g.direct_downstream _).1 n []).1 x hv with h | h
    · exact h
    · simp at h

/-- The task-set computed by `run_pipeline_node` (src/core/pipeline.rs
lines 371-391): DFS upstream of `node_name` with the visited set
pre-seeded with `node_name` itself, then `node_name` pushed at the end. -/
def run_pipeline_node_tasks (g : Graph) (node_name : String) : List String :=
  (g.all_upstream (g.nodes.length + 1) node_name [node_name]).1 ++ [node_name]

/-- C4: the task-set of a single-node pipeline run on `N` is exactly
`N` together with the transitive upstream of `N`; every other node is
absent from the run. -/
theorem run_pipeline_node_task_set (g : Graph) (N m : String) :
    m ∈ run_pipeline_node_tasks g N ↔ (m = N ∨ UpReach g N m) := by
  unfold run_pipeline_node_tasks Graph.all_upstream
  rw [List.mem_append]
  constructor
  · rintro (h | h)
    · exact Or.inr ((dfs_sound g.nodeDeps _).1 N [N] m h)
    · simp at h; exact Or.inl h
  · rintro (rfl | h)
    · right; simp
    · have hP : ∀ m' d, d ∈ g.nodeDeps m' →
          g.nodeDeps d = [] ∨ d ∈ g.nodes.map (fun q => q.1) := by
        intro m' d _
        by_cases hnil : g.nodeDeps d = []
        · exact Or.inl hnil
        · exact Or.inr (nodeDeps_nonempty_mem_keys g d hnil)
      have hcard : ((g.nodes.map (fun q => q.1)).toFinset \
          ([N] : List String).toFinset).card < g.nodes.length + 1 := by
        have h1 := List.toFinset_card_le (g.nodes.map (fun q => q.1))
        have h2 := Finset.card_le_card
          (Finset.sdiff_subset (s := (g.nodes.map (fun q => q.1)).toFinset)
            (t := ([N] : List String).toFinset))
        simp only [List.length_map] at h1
        omega
      have hv := dfs_complete g.nodeDeps _ hP _ N [N] hcard
        (by intro y hy; simpa using hy) m h
      rcases ((dfs_visited_eq g.nodeDeps _).1 N [N]).1 m hv with h' | h'
      · exact Or.inl h'
      · right; simpa using h'

/-! ## C1 — update_node invalidates exactly the transitive downstream -/

theorem get_node_reset (g : Graph) (x m : String) :
    (g.reset_updated_at x).get_node m =
      if m = x then (g.get_node m).map (fun nd => { nd with updated_at := none })
      else g.get_node m := by
  unfold Graph.reset_updated_at Graph.get_node
  exact findValue_updateEntry g.nodes x m (fun nd => { nd with updated_at := none })

/-- Resetting a timestamp does not change the edge structure. -/
theorem direct_downstream_reset (g : Graph) (x name : String) :
    (g.reset_updated_at x).direct_downstream name = g.direct_downstream name := by
  unfold Graph.direct_downstream Graph.reset_updated_at updateEntry
  simp only [List.map_map, List.filterMap_map]
  congr 1
  funext q
  by_cases h : q.1 = x <;> simp [h, Function.comp]

theorem get_node_foldl_reset (l : List String) (g : Graph) (m : String) :
    (l.foldl (fun acc n => acc.reset_updated_at n) g).get_node m =
      if m ∈ l then (g.get_node m).map (fun nd => { nd with updated_at := none })
      else g.get_node m := by
  induction l generalizing g with
  | nil => simp
  | cons a l ih =>
    simp only [List.foldl_cons]
    rw [ih, get_node_reset]
    by_cases hma : m = a
    · subst hma
      by_cases hml : m ∈ l
      · rw [if_pos hml, if_pos rfl, if_pos (List.mem_cons_self _ _)]
        cases g.get_node m <;> rfl
      · rw [if_neg hml, if_pos rfl, if_pos (List.mem_cons_self _ _)]
    · by_cases hml : m ∈ l
      · rw [if_pos hml, if_neg hma, if_pos (List.mem_cons_of_mem _ hml)]
      · rw [if_neg hml, if_neg hma,
          if_neg (fun hc => (List.mem_cons.mp hc).elim hma hml)]

/-- C1: `update_node(n)` sets `updated_at = None` on `n` and on every
transitive downstream of `n`, and leaves every other node unchanged. -/
theorem update_node_spec (g : Graph) (n m : String) :
    ((m = n ∨ DownReach g n m) →
      (g.update_node n).get_node m =
        (g.get_node m).map (fun nd => { nd with updated_at := none })) ∧
    (m ≠ n → ¬ DownReach g n m → (g.update_node n).get_node m = g.get_node m) := by
  have hun : g.update_node n =
      ((g.reset_updated_at n).downstream n).foldl (fun acc k => acc.reset_updated_at k)
        (g.reset_updated_at n) := rfl
  have hdd : (g.reset_updated_at n).direct_downstream = g.direct_downstream :=
    funext (direct_downstream_reset g n)
  have hds : ∀ x, x ∈ (g.reset_updated_at n).downstream n ↔ DownReach g n x := by
    intro x
    rw [Graph.mem_downstream_iff]
    unfold DownReach
    rw [hdd]
  constructor
  · intro hcase
    rw [hun, get_node_foldl_reset, get_node_reset]
    rcases hcase with rfl | hreach
    · by_cases hml : m ∈ (g.reset_updated_at m).downstream m
      · rw [if_pos hml, if_pos rfl]
        cases g.get_node m <;> rfl
      · rw [if_neg hml, if_pos rfl]
    · have hm_in : m ∈ (g.reset_updated_at n).downstream n := (hds m).mpr hreach
      rw [if_pos hm_in]
      by_cases hmn : m = n
      · rw [if_pos hmn]
        cases g.get_node m <;> rfl
      · rw [if_neg hmn]
  · intro hmn hreach
    have hm_out : m ∉ (g.reset_updated_at n).downstream n := fun hc => hreach ((hds m).mp hc)
    rw [hun, get_node_foldl_reset, if_neg hm_out, get_node_reset, if_neg hmn]

/-- The five-node graph of the repository's own `test_graph` test:
`a → b → c`, `b → d`, `e → d`. -/
def exampleGraph : Graph :=
  ⟨[("a", ⟨"a", some 1, []⟩), ("e", ⟨"e", some 1, []⟩), ("b", ⟨"b", some 1, ["a"]⟩),
    ("c", ⟨"c", some 1, ["b"]⟩), ("d", ⟨"d", some 1, ["b", "e"]⟩)]⟩

/-- Witness for C1 on the repository's own test graph: `update_node("a")`
clears `c` (a transitive downstream) and leaves `e` untouched. -/
theorem update_node_spec_witness :
    ((exampleGraph.update_node "a").get_node "c" =
      (exampleGraph.get_node "c").map (fun nd => { nd with updated_at := none })) ∧
    ((exampleGraph.update_node "a").get_node "e" = exampleGraph.get_node "e") := by
  constructor
  · have h1 : "b" ∈ exampleGraph.direct_downstream "a" := by decide
    have h2 : "c" ∈ exampleGraph.direct_downstream "b" := by decide
    exact (update_node_spec exampleGraph "a" "c").1
      (Or.inr (Relation.TransGen.tail (Relation.TransGen.single h1) h2))
  · refine (update_node_spec exampleGraph "a" "e").2 (by decide) ?_
    intro h
    have hmem := (Graph.mem_downstream_iff exampleGraph "a" "e").mpr h
    revert hmem
    decide

/-! ## C10 — mutations on an absent node are no-ops -/

/-- C10: for every name absent from the graph's node map, `update`,
`set_current_time`, and `update_dependencies` leave the graph (hence
every node) unchanged. -/
theorem graph_missing_node_noop (g : Graph) (name : String)
    (h : g.get_node name = none) (now : Nat) (deps : List String) :
    g.update name now = g ∧ g.set_current_time name now = g ∧
      g.update_dependencies name deps = g := by
  refine ⟨?_, ?_, ?_⟩ <;>
    simp [Graph.update, Graph.set_current_time, Graph.update_dependencies,
      findValue_none_updateEntry _ _ _ h]

/-- Witness for C10 at a concrete graph and absent name. -/
theorem graph_missing_node_noop_witness :
    (Graph.mk [("a", ⟨"a", none, []⟩)]).update "zz" 5 = Graph.mk [("a", ⟨"a", none, []⟩)] := by
  have h : (Graph.mk [("a", ⟨"a", none, []⟩)]).get_node "zz" = none := by decide
  exact (graph_missing_node_noop _ "zz" h 5 []).1

/-! ## Pipeline run state (src/core/pipeline.rs)

`TaskStatus` carries `phase`, `started_at`, `completed_at` and
`error`; the two timestamps are irrelevant to every claim and are
omitted, `error` keeps only the message (the `at` stamp is likewise
dropped).  The `Pipeline`'s `started_at`/`completed_at`/`filepath` are
omitted for the same reason. -/

inductive Phase where
  | waiting
  | running
  | completed
  | failed
deriving DecidableEq

structure TaskStatus where
  phase : Phase
  error : Option String
deriving DecidableEq

/-- `TaskStatus::new` -/
def TaskStatus.new : TaskStatus := ⟨Phase.waiting, none⟩

/-- `TaskStatus::start` -/
def TaskStatus.start (t : TaskStatus) : TaskStatus := { t with phase := Phase.running }

/-- `TaskStatus::complete` (also clears `error`) -/
def TaskStatus.complete (t : TaskStatus) : TaskStatus :=
  { t with phase := Phase.completed, error := none }

/-- `TaskStatus::fail` -/
def TaskStatus.fail (t : TaskStatus) (msg : String) : TaskStatus :=
  { t with phase := Phase.failed, error := some msg }

structure Pipeline where
  phase : Phase
  tasks : List (String × TaskStatus)
deriving DecidableEq

/-- `Pipeline::start`: phase `Running`, every named task `Waiting`. -/
def Pipeline.start (names : List String) : Pipeline :=
  ⟨Phase.running, names.map (fun t => (t, TaskStatus.new))⟩

def Pipeline.getTask (p : Pipeline) (name : String) : Option TaskStatus :=
  findValue p.tasks name

/-- `Pipeline::waiting_task` -/
def Pipeline.waiting_task (p : Pipeline) : List String :=
  p.tasks.filterMap (fun q => if q.2.phase = Phase.waiting then some q.1 else none)

/-- `Pipeline::all_deps_completed` -/
def Pipeline.all_deps_completed (p : Pipeline) (dependencies : List String) : Bool :=
  dependencies.all (fun dep =>
    match p.getTask dep with
    | some ts => ts.phase == Phase.completed
    | none => false)

/-- `Pipeline::start_task` -/
def Pipeline.start_task (p : Pipeline) (name : String) : Pipeline :=
  { p with tasks := updateEntry p.tasks name TaskStatus.start }

/-- `Pipeline::complete_task` -/
def Pipeline.complete_task (p : Pipeline) (name : String) : Pipeline :=
  { p with tasks := updateEntry p.tasks name TaskStatus.complete }

/-- `Pipeline::fail_task` -/
def Pipeline.fail_task (p : Pipeline) (name msg : String) : Pipeline :=
  { p with tasks := updateEntry p.tasks name (fun t => t.fail msg) }

/-- `Pipeline::complete` -/
def Pipeline.complete (p : Pipeline) : Pipeline := { p with phase := Phase.completed }

/-- The scan inside `pop_task`: first waiting task whose graph
dependencies are all completed in this run. -/
def popTaskGo (g : Graph) (p : Pipeline) : List String → Option (String × Pipeline)
  | [] => none
  | t :: ts =>
    if p.all_deps_completed (g.nodeDeps t) then some (t, p.start_task t)
    else popTaskGo g p ts

/-- `pop_task` (src/core/pipeline.rs lines 421-444): scan the waiting
tasks, start and return the first one whose dependencies are all
completed. -/
def pop_task (g : Graph) (p : Pipeline) : Option (String × Pipeline) :=
  popTaskGo g p p.waiting_task

/-- `Worker::fail_task` (src/core/pipeline.rs lines 306-321): mark the
task failed with the stringified error, then mark every task in its
graph downstream failed with "Upstream task failed". -/
def worker_fail_task (g : Graph) (p : Pipeline) (name err : String) : Pipeline :=
  (g.downstream name).foldl
    (fun acc task => acc.fail_task task "Upstream task failed")
    (p.fail_task name err)

/-- One atomic lock-protected transition of the worker loop
(`Worker::run` together with `pop_task`, `Worker::complete_task`, and
`Worker::fail_task`).  The graph is fixed: during a run only
`updated_at` stamps change, never names or edges.  `start` requires the
`pop_task` guard; the failure cascade is split into the executor
failure (`failExec`) and one step per downstream task (`cascade`),
since the Rust code re-acquires the pipeline lock between them. -/
inductive Step (g : Graph) : Pipeline → Pipeline → Prop where
  | start (p : Pipeline) (t : String) (ts : TaskStatus) :
      p.getTask t = some ts → ts.phase = Phase.waiting →
      p.all_deps_completed (g.nodeDeps t) = true → Step g p (p.start_task t)
  | completeTask (p : Pipeline) (t : String) (ts : TaskStatus) :
      p.getTask t = some ts → ts.phase = Phase.running → Step g p (p.complete_task t)
  | failExec (p : Pipeline) (t : String) (ts : TaskStatus) (err : String) :
      p.getTask t = some ts → ts.phase = Phase.running → Step g p (p.fail_task t err)
  | cascade (p : Pipeline) (u d : String) (us : TaskStatus) :
      p.getTask u = some us → us.phase = Phase.failed → d ∈ g.downstream u →
      Step g p (p.fail_task d "Upstream task failed")

/-- Run states reachable from the start state of a run over `names`. -/
def Reachable (g : Graph) (names : List String) : Pipeline → Prop :=
  Relation.ReflTransGen (Step g) (Pipeline.start names)

/-- Key-coherence of the graph map: every stored node's `name` equals
its key, and keys are unique — both hold for every Rust `HashMap`
produced by `Graph::create_node`. -/
def GraphWF (g : Graph) : Prop :=
  (∀ q ∈ g.nodes, q.2.name = q.1) ∧ (g.nodes.map (fun q => q.1)).Nodup

/-! ### Pipeline lookup lemmas -/

theorem getTask_start_task (p : Pipeline) (t m : String) :
    (p.start_task t).getTask m =
      if m = t then (p.getTask m).map TaskStatus.start else p.getTask m :=
  findValue_updateEntry p.tasks t m TaskStatus.start

theorem getTask_complete_task (p : Pipeline) (t m : String) :
    (p.complete_task t).getTask m =
      if m = t then (p.getTask m).map TaskStatus.complete else p.getTask m :=
  findValue_updateEntry p.tasks t m TaskStatus.complete

theorem getTask_fail_task (p : Pipeline) (t msg m : String) :
    (p.fail_task t msg).getTask m =
      if m = t then (p.getTask m).map (fun ts => ts.fail msg) else p.getTask m :=
  findValue_updateEntry p.tasks t m (fun ts => ts.fail msg)

theorem all_deps_completed_iff (p : Pipeline) (deps : List String) :
    p.all_deps_completed deps = true ↔
      ∀ d ∈ deps, ∃ ts, p.getTask d = some ts ∧ ts.phase = Phase.completed := by
  unfold Pipeline.all_deps_completed
  rw [List.all_eq_true]
  constructor
  · intro h d hd
    have := h d hd
    cases hts : p.getTask d with
    | none => rw [hts] at this; simp at this
    | some ts =>
      rw [hts] at this
      simp only [beq_iff_eq] at this
      exact ⟨ts, rfl, this⟩
  · intro h d hd
    obtain ⟨ts, hts, hph⟩ := h d hd
    rw [hts]
    simpa using hph

theorem getTask_init (names : List String) (t : String) (ts : TaskStatus)
    (h : (Pipeline.start names).getTask t = some ts) : ts = TaskStatus.new := by
  unfold Pipeline.start Pipeline.getTask findValue at h
  obtain ⟨q, hfind, hsnd⟩ := Option.map_eq_some'.mp h
  have hq := List.mem_of_find?_eq_some hfind
  obtain ⟨name, _, rfl⟩ := List.mem_map.mp hq
  exact hsnd.symm

theorem findValue_of_mem_nodup (l : List (String × α))
    (hnd : (l.map (fun q => q.1)).Nodup) (k : String) (v : α)
    (hm : (k, v) ∈ l) : findValue l k = some v := by
  induction l with
  | nil => simp at hm
  | cons q rest ih =>
    rcases List.mem_cons.mp hm with rfl | hm'
    · simp [findValue, List.find?_cons]
    · have hnd' := hnd
      rw [List.map_cons, List.nodup_cons] at hnd'
      have hq1 : ¬ q.1 = k := fun hc =>
        hnd'.1 (hc ▸ List.mem_map.mpr ⟨(k, v), hm', rfl⟩)
      have hdec : (decide (q.1 = k)) = false := by simp [hq1]
      unfold findValue
      simp only [List.find?_cons, hdec]
      exact ih hnd'.2 hm'

theorem mem_waiting_task (p : Pipeline)
    (hnd : (p.tasks.map (fun q => q.1)).Nodup) (t : String) :
    t ∈ p.waiting_task ↔
      ∃ ts, p.getTask t = some ts ∧ ts.phase = Phase.waiting := by
  unfold Pipeline.waiting_task
  rw [List.mem_filterMap]
  constructor
  · rintro ⟨q, hq, hval⟩
    by_cases hph : q.2.phase = Phase.waiting
    · rw [if_pos hph] at hval
      obtain rfl := Option.some_injective _ hval
      exact ⟨q.2, findValue_of_mem_nodup p.tasks hnd q.1 q.2 hq, hph⟩
    · rw [if_neg hph] at hval
      exact absurd hval Option.noConfusion
  · rintro ⟨ts, hts, hph⟩
    unfold Pipeline.getTask findValue at hts
    obtain ⟨q, hfind, hsnd⟩ := Option.map_eq_some'.mp hts
    have hq := List.mem_of_find?_eq_some hfind
    have hkey := List.find?_some hfind
    simp only [decide_eq_true_eq] at hkey
    subst hsnd
    exact ⟨q, hq, by rw [if_pos hph, hkey]⟩

theorem popTaskGo_spec (g : Graph) (p : Pipeline) :
    ∀ l t p', popTaskGo g p l = some (t, p') →
      t ∈ l ∧ p.all_deps_completed (g.nodeDeps t) = true ∧ p' = p.start_task t := by
  intro l
  induction l with
  | nil => intro t p' h; simp [popTaskGo] at h
  | cons a l ih =>
    intro t p' h
    unfold popTaskGo at h
    by_cases ha : p.all_deps_completed (g.nodeDeps a) = true
    · rw [if_pos ha] at h
      obtain ⟨rfl, rfl⟩ := Prod.mk.injEq .. ▸ Option.some_injective _ h
      exact ⟨List.mem_cons_self _ _, ha, rfl⟩
    · rw [if_neg ha] at h
      obtain ⟨hmem, hdeps, hp'⟩ := ih t p' h
      exact ⟨List.mem_cons_of_mem _ hmem, hdeps, hp'⟩

/-! ### The dependency-completion invariant (C2) -/

/-- In a key-coherent graph, a downstream edge from `u` to `d` means
`u` occurs in `d`'s own dependency list. -/
theorem wf_edge_mem_deps (g : Graph) (hwf : GraphWF g) (u d : String)
    (h : d ∈ g.direct_downstream u) : u ∈ g.nodeDeps d := by
  obtain ⟨q, hq, hname, hdep⟩ := (mem_direct_downstream g u d).mp h
  have hkey : q.1 = d := (hwf.1 q hq) ▸ hname
  have hfind : findValue g.nodes d = some q.2 := by
    subst hkey
    exact findValue_of_mem_nodup g.nodes hwf.2 q.1 q.2 hq
  unfold Graph.nodeDeps Graph.get_node
  rw [hfind]
  exact hdep

/-- Every running or completed task has all of its graph dependencies
present and completed in the run. -/
def DepsInv (g : Graph) (p : Pipeline) : Prop :=
  ∀ t ts, p.getTask t = some ts →
    (ts.phase = Phase.running ∨ ts.phase = Phase.completed) →
    ∀ d ∈ g.nodeDeps t, ∃ ds, p.getTask d = some ds ∧ ds.phase = Phase.completed

/-- Under the invariant, a running or completed task forces every task
it is transitively downstream of to be completed. -/
theorem completed_upstream (g : Graph) (hwf : GraphWF g) (p : Pipeline)
    (hinv : DepsInv g p) (u x : String) (hreach : DownReach g u x) :
    ∀ ts, p.getTask x = some ts →
      (ts.phase = Phase.running ∨ ts.phase = Phase.completed) →
      ∃ us, p.getTask u = some us ∧ us.phase = Phase.completed := by
  induction hreach with
  | single h =>
    intro ts hts hph
    exact hinv _ ts hts hph u (wf_edge_mem_deps g hwf _ _ h)
  | tail hry hredge ih =>
    intro ts hts hph
    obtain ⟨ys, hys, hyph⟩ := hinv _ ts hts hph _ (wf_edge_mem_deps g hwf _ _ hredge)
    exact ih ys hys (Or.inr hyph)

theorem updateEntry_keys (l : List (String × α)) (k : String) (f : α → α) :
    (updateEntry l k f).map (fun q => q.1) = l.map (fun q => q.1) := by
  unfold updateEntry
  rw [List.map_map]
  congr 1
  funext q
  by_cases h : q.1 = k <;> simp [h]

/-- The key set of the task map is the (fixed) name list of the run. -/
theorem reachable_keys (g : Graph) (names : List String) (p : Pipeline)
    (h : Reachable g names p) : p.tasks.map (fun q => q.1) = names := by
  induction h with
  | refl =>
    show (names.map (fun t => (t, TaskStatus.new))).map (fun q => q.1) = names
    rw [List.map_map]
    exact List.map_id'' (fun _ => rfl) names
  | tail hsteps hstep ih =>
    cases hstep <;>
      simpa [Pipeline.start_task, Pipeline.complete_task, Pipeline.fail_task,
        updateEntry_keys] using ih

theorem step_preserves_inv (g : Graph) (hwf : GraphWF g) (p p' : Pipeline)
    (hstep : Step g p p') (hinv : DepsInv g p) : DepsInv g p' := by
  cases hstep with
  | start t ts0 hget hph hdeps =>
    intro t' ts' hget' hph' d hd
    rw [getTask_start_task] at hget'
    have hlift : ∃ ds, p.getTask d = some ds ∧ ds.phase = Phase.completed := by
      by_cases ht' : t' = t
      · rw [if_pos ht'] at hget'
        subst ht'
        exact ((all_deps_completed_iff p (g.nodeDeps t')).mp hdeps) d hd
      · rw [if_neg ht'] at hget'
        exact hinv t' ts' hget' hph' d hd
    obtain ⟨ds, hds, hdph⟩ := hlift
    refine ⟨ds, ?_, hdph⟩
    rw [getTask_start_task]
    by_cases hdt : d = t
    · subst hdt
      rw [hget] at hds
      obtain rfl := Option.some_injective _ hds
      rw [hph] at hdph
      exact absurd hdph (by intro hc; exact Phase.noConfusion hc)
    · rw [if_neg hdt]
      exact hds
  | completeTask t ts0 hget hph =>
    intro t' ts' hget' hph' d hd
    rw [getTask_complete_task] at hget'
    have hlift : ∃ ds, p.getTask d = some ds ∧ ds.phase = Phase.completed := by
      by_cases ht' : t' = t
      · subst ht'
        exact hinv t' ts0 hget (Or.inl hph) d hd
      · rw [if_neg ht'] at hget'
        exact hinv t' ts' hget' hph' d hd
    obtain ⟨ds, hds, hdph⟩ := hlift
    rw [getTask_complete_task]
    by_cases hdt : d = t
    · subst hdt
      rw [if_pos rfl, hds]
      exact ⟨ds.complete, rfl, rfl⟩
    · rw [if_neg hdt]
      exact ⟨ds, hds, hdph⟩
  | failExec t ts0 err hget hph =>
    intro t' ts' hget' hph' d hd
    rw [getTask_fail_task] at hget'
    by_cases ht' : t' = t
    · rw [if_pos ht'] at hget'
      obtain ⟨ts1, _, rfl⟩ := Option.map_eq_some'.mp hget'
      rcases hph' with hc | hc <;> exact absurd hc (by intro h; exact Phase.noConfusion h)
    · rw [if_neg ht'] at hget'
      obtain ⟨ds, hds, hdph⟩ := hinv t' ts' hget' hph' d hd
      refine ⟨ds, ?_, hdph⟩
      rw [getTask_fail_task]
      by_cases hdt : d = t
      · subst hdt
        rw [hget] at hds
        obtain rfl := Option.some_injective _ hds
        rw [hph] at hdph
        exact absurd hdph (by intro hc; exact Phase.noConfusion hc)
      · rw [if_neg hdt]; exact hds
  | cascade u d0 us hgetu hphu hdown =>
    intro t' ts' hget' hph' d hd
    rw [getTask_fail_task] at hget'
    by_cases ht' : t' = d0
    · rw [if_pos ht'] at hget'
      obtain ⟨ts1, _, rfl⟩ := Option.map_eq_some'.mp hget'
      rcases hph' with hc | hc <;> exact absurd hc (by intro h; exact Phase.noConfusion h)
    · rw [if_neg ht'] at hget'
      obtain ⟨ds, hds, hdph⟩ := hinv t' ts' hget' hph' d hd
      refine ⟨ds, ?_, hdph⟩
      rw [getTask_fail_task]
      by_cases hdt : d = d0
      · subst hdt
        have hreach : DownReach g u d := (Graph.mem_downstream_iff g u d).mp hdown
        obtain ⟨uc, huc, hucph⟩ :=
          completed_upstream g hwf p hinv u d hreach ds hds (Or.inr hdph)
        rw [hgetu] at huc
        obtain rfl := Option.some_injective _ huc
        rw [hphu] at hucph
        exact absurd hucph (by intro hc; exact Phase.noConfusion hc)
      · rw [if_neg hdt]; exact hds

theorem init_inv (g : Graph) (names : List String) :
    DepsInv g (Pipeline.start names) := by
  intro t ts hget hph d hd
  obtain rfl := getTask_init names t ts hget
  rcases hph with hc | hc <;> exact absurd hc (by intro h; exact Phase.noConfusion h)

theorem reachable_inv (g : Graph) (hwf : GraphWF g) (names : List String)
    (p : Pipeline) (h : Reachable g names p) : DepsInv g p := by
  induction h with
  | refl => exact init_inv g names
  | tail hsteps hstep ih => exact step_preserves_inv g hwf _ _ hstep ih

/-- C2: in every pipeline run (any state reachable from the start of a
run over `names`), (i) `pop_task` starts a waiting task only when all
its graph dependencies are completed in the run, (ii) every completed
task has all its dependencies completed, and (iii) a task with a
dependency absent from the run's task-set is never started (it is
neither running nor completed in any reachable state). -/
theorem pipeline_deps_invariant (g : Graph) (names : List String) (p : Pipeline)
    (hwf : GraphWF g) (hnames : names.Nodup) (hreach : Reachable g names p) :
    (∀ t p', pop_task g p = some (t, p') →
      (∃ ts, p.getTask t = some ts ∧ ts.phase = Phase.waiting) ∧
      p.all_deps_completed (g.nodeDeps t) = true ∧ p' = p.start_task t) ∧
    (∀ t ts, p.getTask t = some ts → ts.phase = Phase.completed →
      ∀ d ∈ g.nodeDeps t, ∃ ds, p.getTask d = some ds ∧ ds.phase = Phase.completed) ∧
    (∀ t ts, p.getTask t = some ts → (∃ d ∈ g.nodeDeps t, p.getTask d = none) →
      ts.phase ≠ Phase.running ∧ ts.phase ≠ Phase.completed) := by
  have hinv := reachable_inv g hwf names p hreach
  have hkeys : p.tasks.map (fun q => q.1) = names := reachable_keys g names p hreach
  have hnd : (p.tasks.map (fun q => q.1)).Nodup := hkeys ▸ hnames
  refine ⟨?_, ?_, ?_⟩
  · intro t p' hpop
    obtain ⟨hmem, hdeps, hp'⟩ := popTaskGo_spec g p p.waiting_task t p' hpop
    exact ⟨(mem_waiting_task p hnd t).mp hmem, hdeps, hp'⟩
  · intro t ts hget hph d hd
    exact hinv t ts hget (Or.inr hph) d hd
  · intro t ts hget ⟨d, hd, hnone⟩
    constructor <;> intro hph
    · obtain ⟨ds, hds, _⟩ := hinv t ts hget (Or.inl hph) d hd
      rw [hnone] at hds
      exact Option.noConfusion hds
    · obtain ⟨ds, hds, _⟩ := hinv t ts hget (Or.inr hph) d hd
      rw [hnone] at hds
      exact Option.noConfusion hds

/-- Witness for C2: the start state of a run over `[a, b]` on the test
graph; `pop_task` picks `a` (no dependencies) and its guard holds. -/
theorem pipeline_deps_invariant_witness :
    (Pipeline.start ["a", "b"]).all_deps_completed (exampleGraph.nodeDeps "a") = true ∧
    pop_task exampleGraph (Pipeline.start ["a", "b"]) =
      some ("a", (Pipeline.start ["a", "b"]).start_task "a") := by
  have h := (pipeline_deps_invariant exampleGraph ["a", "b"] (Pipeline.start ["a", "b"])
    (by exact ⟨by decide, by decide⟩) (by decide) Relation.ReflTransGen.refl).1
  have hpop : pop_task exampleGraph (Pipeline.start ["a", "b"]) =
      some ("a", (Pipeline.start ["a", "b"]).start_task "a") := by decide
  exact ⟨(h "a" _ hpop).2.1, hpop⟩

/-! ### The failure cascade (C3) -/

theorem getTask_foldl_fail (l : List String) (p : Pipeline) (msg m : String) :
    ((l.foldl (fun acc d => acc.fail_task d msg) p)).getTask m =
      if m ∈ l then (p.getTask m).map (fun ts => ts.fail msg) else p.getTask m := by
  induction l generalizing p with
  | nil => simp
  | cons a l ih =>
    simp only [List.foldl_cons]
    rw [ih, getTask_fail_task]
    by_cases hma : m = a
    · subst hma
      by_cases hml : m ∈ l
      · rw [if_pos hml, if_pos rfl, if_pos (List.mem_cons_self _ _)]
        cases p.getTask m <;> rfl
      · rw [if_neg hml, if_pos rfl, if_pos (List.mem_cons_self _ _)]
    · by_cases hml : m ∈ l
      · rw [if_pos hml, if_neg hma, if_pos (List.mem_cons_of_mem _ hml)]
      · rw [if_neg hml, if_neg hma,
          if_neg (fun hc => (List.mem_cons.mp hc).elim hma hml)]

/-- C3: when a task fails, `Worker::fail_task` marks it failed with
the stringified error; every transitive downstream task present in the
run's task-set is marked failed with "Upstream task failed"; tasks
absent from the task-set stay absent; unrelated tasks are untouched;
a failed task can never be started again by any later step (so it is
never executed); and the pipeline's own `complete` unconditionally ends
in phase `completed`.  The hypothesis `name ∉ downstream(name)` is the
acyclicity (at `name`) the spec assumes of every graph in intended
use. -/
theorem worker_fail_task_spec (g : Graph) (p : Pipeline) (name err : String)
    (hself : name ∉ g.downstream name) :
    (∀ ts, p.getTask name = some ts →
      (worker_fail_task g p name err).getTask name = some (ts.fail err)) ∧
    (∀ d, DownReach g name d → ∀ ts, p.getTask d = some ts →
      (worker_fail_task g p name err).getTask d =
        some (ts.fail "Upstream task failed")) ∧
    (∀ d, p.getTask d = none → (worker_fail_task g p name err).getTask d = none) ∧
    (∀ m, m ≠ name → ¬ DownReach g name m →
      (worker_fail_task g p name err).getTask m = p.getTask m) ∧
    (∀ q q' t ts, Step g q q' → q.getTask t = some ts → ts.phase = Phase.failed →
      ∃ ts', q'.getTask t = some ts' ∧ ts'.phase = Phase.failed) ∧
    (∀ q : Pipeline, q.complete.phase = Phase.completed) := by
  have hunfold : ∀ m, (worker_fail_task g p name err).getTask m =
      if m ∈ g.downstream name
      then ((p.fail_task name err).getTask m).map (fun ts => ts.fail "Upstream task failed")
      else (p.fail_task name err).getTask m := by
    intro m
    exact getTask_foldl_fail (g.downstream name) (p.fail_task name err) _ m
  refine ⟨?_, ?_, ?_, ?_, ?_, fun q => rfl⟩
  · intro ts hts
    rw [hunfold, if_neg hself, getTask_fail_task, if_pos rfl, hts]
    rfl
  · intro d hreach ts hts
    have hmem : d ∈ g.downstream name := (Graph.mem_downstream_iff g name d).mpr hreach
    have hdn : ¬ d = name := fun hc => hself (hc ▸ hmem)
    rw [hunfold, if_pos hmem, getTask_fail_task, if_neg hdn, hts]
    rfl
  · intro d hnone
    rw [hunfold]
    by_cases hdm : d ∈ g.downstream name
    · rw [if_pos hdm, getTask_fail_task]
      by_cases hdn : d = name
      · rw [if_pos hdn, hnone]
        rfl
      · rw [if_neg hdn, hnone]
        rfl
    · rw [if_neg hdm, getTask_fail_task]
      by_cases hdn : d = name
      · rw [if_pos hdn, hnone]
        rfl
      · rw [if_neg hdn]
        exact hnone
  · intro m hmn hmr
    have hmem : m ∉ g.downstream name := fun hc =>
      hmr ((Graph.mem_downstream_iff g name m).mp hc)
    rw [hunfold, if_neg hmem, getTask_fail_task, if_neg hmn]
  · intro q q' t ts hstep hget hph
    cases hstep with
    | start t0 ts0 hget0 hph0 hdeps0 =>
      rw [getTask_start_task]
      by_cases ht : t = t0
      · subst ht
        rw [hget0] at hget
        obtain rfl := Option.some_injective _ hget
        rw [hph0] at hph
        exact absurd hph (by intro hc; exact Phase.noConfusion hc)
      · rw [if_neg ht]
        exact ⟨ts, hget, hph⟩
    | completeTask t0 ts0 hget0 hph0 =>
      rw [getTask_complete_task]
      by_cases ht : t = t0
      · subst ht
        rw [hget0] at hget
        obtain rfl := Option.some_injective _ hget
        rw [hph0] at hph
        exact absurd hph (by intro hc; exact Phase.noConfusion hc)
      · rw [if_neg ht]
        exact ⟨ts, hget, hph⟩
    | failExec t0 ts0 err0 hget0 hph0 =>
      rw [getTask_fail_task]
      by_cases ht : t = t0
      · subst ht
        rw [hget, if_pos rfl]
        exact ⟨ts.fail err0, rfl, rfl⟩
      · rw [if_neg ht]
        exact ⟨ts, hget, hph⟩
    | cascade u0 d0 us0 hget0 hph0 hdown0 =>
      rw [getTask_fail_task]
      by_cases ht : t = d0
      · subst ht
        rw [hget, if_pos rfl]
        exact ⟨ts.fail "Upstream task failed", rfl, rfl⟩
      · rw [if_neg ht]
        exact ⟨ts, hget, hph⟩

/-- Witness for C3 on the test graph: failing `e` marks `e` with the
error and its downstream `d` with "Upstream task failed". -/
theorem worker_fail_task_spec_witness :
    (worker_fail_task exampleGraph (Pipeline.start ["a", "b", "c", "d", "e"])
        "e" "boom").getTask "e" = some (TaskStatus.new.fail "boom") ∧
    (worker_fail_task exampleGraph (Pipeline.start ["a", "b", "c", "d", "e"])
        "e" "boom").getTask "d" = some (TaskStatus.new.fail "Upstream task failed") := by
  have hspec := worker_fail_task_spec exampleGraph
    (Pipeline.start ["a", "b", "c", "d", "e"]) "e" "boom" (by decide)
  have hedge : "d" ∈ exampleGraph.direct_downstream "e" := by decide
  exact ⟨hspec.1 _ (by decide),
    hspec.2.1 "d" (Relation.TransGen.single hedge) _ (by decide)⟩

/-! ## Secret vault (src/core/config/secret.rs)

`SecretField::encrypt_string` / `decrypt_string` wrap external
primitives: ring's AES-256-GCM seal/open, the base64 codec, and UTF-8
conversion.  The wrapper logic (key-size check, `nonce ‖ ciphertext ‖
tag` packing, base64, minimum-length check, splitting at `NONCE_LEN`)
is translated from the Rust source; the external primitives are
parameters, constrained in the theorems only by their documented
contracts (the tag is 16 bytes, `open` inverts `seal`, decode inverts
encode, UTF-8 decode inverts encode).  Bytes are `Nat`s;
`NONCE_LEN = 12` and `AES_256_GCM.tag_len() = 16` as in ring. -/

inductive SecretError where
  | invalidKeySize (got : Nat)
  | decodeFailed
  | ciphertextTooShort
  | decryptionFailed
  | invalidUtf8
deriving DecidableEq

def NONCE_LEN : Nat := 12
def TAG_LEN : Nat := 16

/-- `SecretField::encrypt_string`: check the key is exactly 32 bytes,
seal the UTF-8 bytes of the plaintext under the fresh nonce, base64
the concatenation `nonce ‖ ciphertext ‖ tag`.  `aeadSeal key nonce msg`
returns `(ciphertext, tag)`. -/
def encrypt_string
    (aeadSeal : List Nat → List Nat → List Nat → List Nat × List Nat)
    (b64encode : List Nat → String)
    (utf8encode : String → List Nat)
    (key_bytes nonce_bytes : List Nat) (plaintext : String) :
    Except SecretError String :=
  if _hk : key_bytes.length ≠ 32 then Except.error (SecretError.invalidKeySize key_bytes.length)
  else
    let message := utf8encode plaintext
    let sealed := aeadSeal key_bytes nonce_bytes message
    Except.ok (b64encode (nonce_bytes ++ sealed.1 ++ sealed.2))

/-- `SecretField::decrypt_string`: check the key is exactly 32 bytes,
base64-decode, check the minimum length `NONCE_LEN + tag_len`, split
off the nonce, open, and decode the plaintext as UTF-8. -/
def decrypt_string
    (aeadOpen : List Nat → List Nat → List Nat → Option (List Nat))
    (b64decode : String → Option (List Nat))
    (utf8decode : List Nat → Option String)
    (key_bytes : List Nat) (encrypted : String) :
    Except SecretError String :=
  if _hk : key_bytes.length ≠ 32 then Except.error (SecretError.invalidKeySize key_bytes.length)
  else
    match b64decode encrypted with
    | none => Except.error SecretError.decodeFailed
    | some combined =>
      if combined.length < NONCE_LEN + TAG_LEN then Except.error SecretError.ciphertextTooShort
      else
        let nonce_bytes := combined.take NONCE_LEN
        let ciphertext_and_tag := combined.drop NONCE_LEN
        match aeadOpen key_bytes nonce_bytes ciphertext_and_tag with
        | none => Except.error SecretError.decryptionFailed
        | some pt =>
          match utf8decode pt with
          | none => Except.error SecretError.invalidUtf8
          | some s => Except.ok s

/-- C5: encrypt-then-decrypt is the identity, for every plaintext and
every 32-byte key, given the documented contracts of the external
primitives (16-byte tag, aead open inverts seal, base64 decode inverts
encode, UTF-8 decode inverts encode). -/
theorem encrypt_then_decrypt_id
    (aeadSeal : List Nat → List Nat → List Nat → List Nat × List Nat)
    (aeadOpen : List Nat → List Nat → List Nat → Option (List Nat))
    (b64encode : List Nat → String) (b64decode : String → Option (List Nat))
    (utf8encode : String → List Nat) (utf8decode : List Nat → Option String)
    (key_bytes nonce_bytes : List Nat) (plaintext : String)
    (hkey : key_bytes.length = 32)
    (hnonce : nonce_bytes.length = NONCE_LEN)
    (htag : (aeadSeal key_bytes nonce_bytes (utf8encode plaintext)).2.length = TAG_LEN)
    (hopen : aeadOpen key_bytes nonce_bytes
        ((aeadSeal key_bytes nonce_bytes (utf8encode plaintext)).1 ++
          (aeadSeal key_bytes nonce_bytes (utf8encode plaintext)).2) =
      some (utf8encode plaintext))
    (hb64 : b64decode (b64encode (nonce_bytes ++
          (aeadSeal key_bytes nonce_bytes (utf8encode plaintext)).1 ++
          (aeadSeal key_bytes nonce_bytes (utf8encode plaintext)).2)) =
      some (nonce_bytes ++ (aeadSeal key_bytes nonce_bytes (utf8encode plaintext)).1 ++
          (aeadSeal key_bytes nonce_bytes (utf8encode plaintext)).2))
    (hutf8 : utf8decode (utf8encode plaintext) = some plaintext) :
    ∀ enc, encrypt_string aeadSeal b64encode utf8encode key_bytes nonce_bytes plaintext =
        Except.ok enc →
      decrypt_string aeadOpen b64decode utf8decode key_bytes enc = Except.ok plaintext := by
  intro enc henc
  have hkne : ¬ key_bytes.length ≠ 32 := fun hc => hc hkey
  unfold encrypt_string at henc
  rw [dif_neg hkne] at henc
  obtain rfl : b64encode (nonce_bytes ++
      (aeadSeal key_bytes nonce_bytes (utf8encode plaintext)).1 ++
      (aeadSeal key_bytes nonce_bytes (utf8encode plaintext)).2) = enc := by
    exact congrArg (fun e => match e with | Except.ok v => v | Except.error _ => "") henc
  unfold decrypt_string
  rw [dif_neg hkne, hb64]
  set ct := (aeadSeal key_bytes nonce_bytes (utf8encode plaintext)).1 with hct
  set tag := (aeadSeal key_bytes nonce_bytes (utf8encode plaintext)).2 with htag'
  have hlen : ¬ (nonce_bytes ++ ct ++ tag).length < NONCE_LEN + TAG_LEN := by
    simp only [List.length_append, hnonce, htag]
    omega
  have htake : (nonce_bytes ++ ct ++ tag).take NONCE_LEN = nonce_bytes := by
    rw [List.append_assoc, ← hnonce, List.take_left]
  have hdrop : (nonce_bytes ++ ct ++ tag).drop NONCE_LEN = ct ++ tag := by
    rw [List.append_assoc, ← hnonce, List.drop_left]
  dsimp only
  rw [if_neg hlen, htake, hdrop, hopen]
  dsimp only
  rw [hutf8]

/-- Witness for C5 with concrete primitives satisfying the contracts
(identity seal with a zero tag, truncating open, constant codecs) on
plaintext `"a"` and the all-zero 32-byte key. -/
theorem encrypt_then_decrypt_id_witness :
    decrypt_string (fun _ _ c => some (c.take (c.length - 16)))
      (fun _ => some (List.replicate 12 0 ++ [97] ++ List.replicate 16 0))
      (fun _ => some "a") (List.replicate 32 0) "enc" = Except.ok "a" := by
  have h := encrypt_then_decrypt_id
    (fun _ _ m => (m, List.replicate 16 0))
    (fun _ _ c => some (c.take (c.length - 16)))
    (fun _ => "enc")
    (fun _ => some (List.replicate 12 0 ++ [97] ++ List.replicate 16 0))
    (fun _ => [97]) (fun _ => some "a")
    (List.replicate 32 0) (List.replicate 12 0) "a"
    (by decide) (by decide) (by decide) (by decide) (by decide) (by decide)
  exact h "enc" rfl

/-- C6: whenever the key file's content is not exactly 32 bytes, both
encrypt and decrypt fail with the invalid-key-size error — for every
choice of the cryptographic primitives, i.e. before any cryptographic
operation is consulted. -/
theorem invalid_key_size_errors
    (aeadSeal : List Nat → List Nat → List Nat → List Nat × List Nat)
    (aeadOpen : List Nat → List Nat → List Nat → Option (List Nat))
    (b64encode : List Nat → String) (b64decode : String → Option (List Nat))
    (utf8encode : String → List Nat) (utf8decode : List Nat → Option String)
    (key_bytes nonce_bytes : List Nat) (plaintext encrypted : String)
    (hkey : key_bytes.length ≠ 32) :
    encrypt_string aeadSeal b64encode utf8encode key_bytes nonce_bytes plaintext =
      Except.error (SecretError.invalidKeySize key_bytes.length) ∧
    decrypt_string aeadOpen b64decode utf8decode key_bytes encrypted =
      Except.error (SecretError.invalidKeySize key_bytes.length) := by
  unfold encrypt_string decrypt_string
  rw [dif_pos hkey, dif_pos hkey]
  exact ⟨rfl, rfl⟩

/-- Witness for C6: a 9-byte key (the repository's own
`test_invalid_key_size` uses `b"short_key"`, 9 bytes). -/
theorem invalid_key_size_errors_witness :
    encrypt_string (fun _ _ m => (m, [])) (fun _ => "") (fun _ => [])
        (List.replicate 9 0) (List.replicate 12 0) "test" =
      Except.error (SecretError.invalidKeySize 9) ∧
    decrypt_string (fun _ _ _ => none) (fun _ => none) (fun _ => none)
        (List.replicate 9 0) "abc" =
      Except.error (SecretError.invalidKeySize 9) := by
  have h := invalid_key_size_errors (fun _ _ m => (m, [])) (fun _ _ _ => none)
    (fun _ => "") (fun _ => none) (fun _ => []) (fun _ => none)
    (List.replicate 9 0) (List.replicate 12 0) "test" "abc" (by decide)
  simpa using h

/-! ## Object-store file listing (src/core/adapter/file/s3.rs)

`extract_prefix_from_pattern` splits the pattern on `'/'` (Rust
`str::split('/')`, every empty segment included) and joins the leading
wildcard-free segments.  `matches_pattern` converts the shell pattern
to the regex `^…$` with `.` → `\.`, `*` → `.*`, `?` → `.` and filters
keys with it; the external regex engine is modelled by `globMatch`,
the semantics of exactly that regex for patterns whose remaining
characters are regex literals (`*` matches any sequence, `?` any
single character, everything else itself).  Strings are handled at the
character-list level. -/

/-- Rust `str::split('/')`: `acc` holds the pending segment reversed. -/
def splitSlashAux : List Char → List Char → List (List Char)
  | [], acc => [acc.reverse]
  | c :: cs, acc =>
    if c = '/' then acc.reverse :: splitSlashAux cs []
    else splitSlashAux cs (c :: acc)

def splitSlash (s : List Char) : List (List Char) := splitSlashAux s []

/-- The wildcard test of the loop body: `part.contains('*') ||
part.contains('?')`. -/
def hasWildcard (part : List Char) : Bool := part.contains '*' || part.contains '?'

/-- The loop of `extract_prefix_from_pattern`: stop at the first
segment holding `*` or `?`; push `'/'` before a segment only when the
accumulator is nonempty. -/
def extractLoop : List (List Char) → List Char → List Char
  | [], acc => acc
  | part :: rest, acc =>
    if hasWildcard part then acc
    else extractLoop rest (if acc.isEmpty then part else acc ++ '/' :: part)

/-- `extract_prefix_from_pattern` -/
def extract_prefix_from_pattern (pattern : String) : String :=
  String.mk (extractLoop (splitSlash pattern.data) [])

/-- `f` holds on some suffix of the list (including itself and `[]`). -/
def anySuffix (f : List Char → Bool) : List Char → Bool
  | [] => f []
  | k :: ks => f (k :: ks) || anySuffix f ks

/-- Semantics of the regex `^t(p)$` built by `matches_pattern`, where
`t` maps `*` to `.*`, `?` to `.`, and every other pattern character to
itself as a literal (`.` is escaped to `\.` by the Rust code). -/
def globMatch : List Char → List Char → Bool
  | [], ks => ks.isEmpty
  | '*' :: ps, ks => anySuffix (fun suffx => globMatch ps suffx) ks
  | _ :: _, [] => false
  | c :: ps, k :: ks => (c == '?' || c == k) && globMatch ps ks

/-- `matches_pattern` -/
def matches_pattern (pattern key : String) : Bool :=
  globMatch pattern.data key.data

/-- The client-side part of `S3FileAdapter::list_s3_files` (lines
69-78): filter all listed keys by the pattern and qualify them as
`s3://bucket/key`.  The network listing itself is represented by its
result `all_keys`. -/
def list_s3_files (bucket pattern : String) (all_keys : List String) : List String :=
  (all_keys.filter (fun key => matches_pattern pattern key)).map
    (fun key => "s3://" ++ bucket ++ "/" ++ key)

/-- The prefix as the claim words it: the longest literal prefix of
the pattern up to the first wildcard character.  Written from the
claim, for comparison with the source's `extract_prefix_from_pattern`. -/
def takeUntilWildcard (pattern : String) : String :=
  String.mk (pattern.data.takeWhile (fun c => !(c == '*' || c == '?')))

/-- Join segments with `'/'` — the amended description of the computed
listing prefix. -/
def segJoin : List (List Char) → List Char
  | [] => []
  | [p] => p
  | p :: rest => p ++ '/' :: segJoin rest

/-- The amended prefix: join with `'/'` the leading slash-separated
segments that contain no wildcard, ignoring leading empty segments. -/
def amendedListingStop (pattern : String) : String :=
  String.mk (segJoin
    (((splitSlash pattern.data).takeWhile
        (fun part => !hasWildcard part)).dropWhile
      (fun part => part.isEmpty)))

/-- C7 counterexample: on `"data/fi*.csv"` the code's list-objects
prefix is `"data"`, not the claim's longest literal prefix
`"data/fi"`. -/
theorem extract_prefix_counterexample :
    extract_prefix_from_pattern "data/fi*.csv" = "data" ∧
    takeUntilWildcard "data/fi*.csv" = "data/fi" ∧
    ("data" : String) ≠ "data/fi" := by
  refine ⟨?_, ?_, ?_⟩ <;> decide

theorem segJoin_cons_cons (p q : List Char) (rest : List (List Char)) :
    segJoin (p :: q :: rest) = p ++ '/' :: segJoin (q :: rest) := rfl

theorem extractLoop_nonempty (parts : List (List Char)) (acc : List Char)
    (hacc : acc ≠ []) :
    extractLoop parts acc =
      segJoin (acc :: parts.takeWhile (fun part => !hasWildcard part)) := by
  induction parts generalizing acc with
  | nil => rfl
  | cons part rest ih =>
    cases hw : hasWildcard part with
    | true =>
      unfold extractLoop
      rw [if_pos hw, List.takeWhile_cons, hw]
      simp [segJoin]
    | false =>
      have hne : acc.isEmpty = false := by
        cases acc with
        | nil => exact absurd rfl hacc
        | cons a as => rfl
      unfold extractLoop
      rw [if_neg (by simp [hw]), hne]
      simp only [Bool.false_eq_true, if_false]
      rw [ih (acc ++ '/' :: part) (by simp), List.takeWhile_cons, hw]
      simp only [Bool.not_false, if_pos rfl]
      cases htw : rest.takeWhile (fun part => !hasWildcard part) with
      | nil => simp [segJoin]
      | cons t ts => simp [segJoin_cons_cons]

theorem extractLoop_empty_acc (parts : List (List Char)) :
    extractLoop parts [] =
      segJoin ((parts.takeWhile (fun part => !hasWildcard part)).dropWhile
        (fun part => part.isEmpty)) := by
  induction parts with
  | nil => rfl
  | cons part rest ih =>
    cases hw : hasWildcard part with
    | true =>
      unfold extractLoop
      rw [if_pos hw, List.takeWhile_cons, hw]
      simp [segJoin]
    | false =>
      unfold extractLoop
      rw [if_neg (by simp [hw]), List.takeWhile_cons, hw]
      simp only [Bool.not_false, if_true]
      rw [List.dropWhile_cons]
      cases part with
      | nil =>
        simp only [List.isEmpty_nil, if_true]
        simpa using ih
      | cons c cs =>
        simp only [List.isEmpty_cons, Bool.false_eq_true, if_false]
        have hx := extractLoop_nonempty rest (c :: cs) (by simp)
        simpa using hx

/-- C7 (amended): the listing prefix is the `'/'`-join of the leading
wildcard-free slash-segments of the pattern (leading empty segments
contributing nothing), and the listing keeps exactly the keys matched
by the regex built from the pattern (`.` → `\.`, `*` → `.*`, `?` → `.`,
anchored), each qualified as `s3://bucket/key`. -/
theorem s3_listing_spec (pattern bucket : String) (keys : List String) (x : String) :
    extract_prefix_from_pattern pattern = amendedListingStop pattern ∧
    (x ∈ list_s3_files bucket pattern keys ↔
      ∃ key ∈ keys, matches_pattern pattern key = true ∧
        x = "s3://" ++ bucket ++ "/" ++ key) := by
  constructor
  · unfold extract_prefix_from_pattern amendedListingStop
    rw [extractLoop_empty_acc]
  · unfold list_s3_files
    rw [List.mem_map]
    constructor
    · rintro ⟨key, hkey, rfl⟩
      rw [List.mem_filter] at hkey
      exact ⟨key, hkey.1, hkey.2, rfl⟩
    · rintro ⟨key, hkey, hmatch, rfl⟩
      exact ⟨key, List.mem_filter.mpr ⟨hkey, hmatch⟩, rfl⟩

/-! ## Local-file schema validation (src/core/adapter/file/localfile.rs)

`LocalFileAdapter::types_match` normalizes with
`to_uppercase().replace("INTEGER","BIGINT").replace("STRING","VARCHAR").replace("FLOAT","DOUBLE")`
— note: unlike the database adapters, it does **not** strip a
parenthesized modifier.  Rust's `str::to_uppercase` and `str::replace`
are modelled at the character-list level (`replaceL` replaces
non-overlapping occurrences left to right; the type strings involved
are ASCII). -/

def toUpperL (s : List Char) : List Char := s.map Char.toUpper

/-- Left-to-right non-overlapping replacement of `src` by `dst`
(fuel-structural so the kernel can evaluate it; the fuel
`s.length` is consumed at least one character per step). -/
def replaceFuel (src dst : List Char) : Nat → List Char → List Char
  | _, [] => []
  | 0, s => s
  | fuel + 1, c :: cs =>
    if src.isPrefixOf (c :: cs) && !src.isEmpty then
      dst ++ replaceFuel src dst fuel (List.drop src.length (c :: cs))
    else c :: replaceFuel src dst fuel cs

def replaceL (src dst s : List Char) : List Char := replaceFuel src dst s.length s

/-- The `normalize_type` closure of `LocalFileAdapter::types_match`. -/
def normalize_type (t : List Char) : List Char :=
  replaceL "FLOAT".data "DOUBLE".data
    (replaceL "STRING".data "VARCHAR".data
      (replaceL "INTEGER".data "BIGINT".data (toUpperL t)))

/-- `LocalFileAdapter::types_match` -/
def types_match (expected actual : String) : Bool :=
  normalize_type expected.data == normalize_type actual.data

/-- The normalization the claim describes: uppercase, strip any
parenthesized modifier, then substitute.  Written from the claim's
words, for comparison with the source's `types_match`. -/
def claimNormalize (t : List Char) : List Char :=
  replaceL "FLOAT".data "DOUBLE".data
    (replaceL "STRING".data "VARCHAR".data
      (replaceL "INTEGER".data "BIGINT".data
        ((toUpperL t).takeWhile (fun c => !(c == '(')))))

def claim_types_match (expected actual : String) : Bool :=
  claimNormalize expected.data == claimNormalize actual.data

/-- C8 counterexample: on declared `BIGINT` vs actual `BIGINT(20)` the
claim's normalization (which strips the parenthesized modifier) says
the column matches, but the local-file adapter's `types_match` keeps
the modifier and rejects it. -/
theorem types_match_counterexample :
    types_match "BIGINT" "BIGINT(20)" = false ∧
    claim_types_match "BIGINT" "BIGINT(20)" = true := by
  constructor <;> decide

structure ColumnInfo where
  name : String
  data_type : String
deriving DecidableEq

structure ColumnConfig where
  name : String
  ty : String
  description : Option String
deriving DecidableEq

/-- `LocalFileAdapter::validate_schema` (lines 137-169): for each
declared column find the actual column of the same name (first match),
fail if absent or if the types do not match; succeed when every
declared column passes.  The actual columns (read from the file by
`get_file_schema`) are passed in as `actual`. -/
def validate_schema : List ColumnConfig → List ColumnInfo → Except String Unit
  | [], _ => Except.ok ()
  | e :: rest, actual =>
    match actual.find? (fun col => col.name == e.name) with
    | none => Except.error ("Column '" ++ e.name ++ "' not found")
    | some a =>
      if types_match e.ty a.data_type then validate_schema rest actual
      else Except.error ("Column '" ++ e.name ++ "' type mismatch")

/-- C8 (amended): a declared column matches iff the two type strings
are equal after uppercasing and the three substitutions (no
parenthesized-modifier stripping), and schema validation succeeds iff
every declared column is found by name and matches under that
normalization. -/
theorem validate_schema_spec (expected : List ColumnConfig) (actual : List ColumnInfo) :
    (∀ e a : String, types_match e a = true ↔
      normalize_type e.data = normalize_type a.data) ∧
    (validate_schema expected actual = Except.ok () ↔
      ∀ e ∈ expected, ∃ a, actual.find? (fun col => col.name == e.name) = some a ∧
        normalize_type e.ty.data = normalize_type a.data_type.data) := by
  have htm : ∀ e a : String, types_match e a = true ↔
      normalize_type e.data = normalize_type a.data := by
    intro e a
    unfold types_match
    exact beq_iff_eq
  refine ⟨htm, ?_⟩
  induction expected with
  | nil => simp [validate_schema]
  | cons e rest ih =>
    unfold validate_schema
    cases hfind : actual.find? (fun col => col.name == e.name) with
    | none =>
      dsimp only
      constructor
      · intro h; exact absurd h (by simp)
      · intro h
        obtain ⟨a, ha, _⟩ := h e (List.mem_cons_self _ _)
        rw [hfind] at ha
        exact absurd ha Option.noConfusion
    | some a =>
      dsimp only
      by_cases htypes : types_match e.ty a.data_type = true
      · rw [if_pos htypes, ih]
        constructor
        · intro h e' he'
          rcases List.mem_cons.mp he' with rfl | he''
          · exact ⟨a, hfind, (htm _ _).mp htypes⟩
          · exact h e' he''
        · intro h e' he'
          exact h e' (List.mem_cons_of_mem _ he')
      · rw [if_neg htypes]
        constructor
        · intro h; exact absurd h (by simp)
        · intro h
          obtain ⟨a', ha', hn⟩ := h e (List.mem_cons_self _ _)
          rw [hfind] at ha'
          obtain rfl := Option.some_injective _ ha'
          exact absurd ((htm _ _).mpr hn) htypes

/-! ## SQL dependency extraction (src/core/graph.rs lines 197-238)

`dependent_tables` parses the SQL with the external `sqlparser` crate
and then inspects the AST.  The AST fragment the code touches is
modelled below: a statement is a query with a body (either a `SELECT`
with its `FROM` list or some other set expression) or some other
statement; each `FROM` item has a relation and joins, and a relation
is a named table, a nested join, or something else (`collect_table_names`
ignores derived tables etc.).  A `Join` contributes only its
`relation` field, so it is represented by that relation. -/

inductive TableFactor where
  | table (name : String)
  | nestedJoin (relation : TableFactor) (joins : List TableFactor)
  | other

structure TableWithJoins where
  relation : TableFactor
  joins : List TableFactor

structure Select where
  from_ : List TableWithJoins

inductive SetExpr where
  | select (s : Select)
  | setOther

inductive Statement where
  | query (body : SetExpr)
  | stmtOther

mutual

/-- `collect_table_names` -/
def collect_table_names : TableFactor → List String
  | TableFactor.table name => [name]
  | TableFactor.nestedJoin relation joins =>
    collect_table_names relation ++ collectJoinList joins
  | TableFactor.other => []

def collectJoinList : List TableFactor → List String
  | [] => []
  | t :: ts => collect_table_names t ++ collectJoinList ts

end

/-- `dependent_tables`, applied to the parsed statement list: if the
first statement is a query whose body is a `SELECT`, collect the table
names of every `FROM` item and its joins; otherwise return `[]`.  (A
parse error returns `Err` before this point and is outside the claim.) -/
def dependent_tables (ast : List Statement) : List String :=
  match ast.head? with
  | some (Statement.query (SetExpr.select s)) =>
    s.from_.foldl
      (fun acc t => acc ++ collect_table_names t.relation ++ collectJoinList t.joins) []
  | _ => []

/-- Whether the first parsed statement is a `SELECT` query. -/
def head_is_select_query : List Statement → Bool
  | Statement.query (SetExpr.select _) :: _ => true
  | _ => false

/-- C9: for every parsed statement list whose head is not a `SELECT`
query, `dependent_tables` returns `[]`; and on the parse of
`"SELECT 1"` — a `SELECT` with an empty `FROM` list — it returns `[]`
as well. -/
theorem dependent_tables_spec :
    (∀ ast : List Statement, head_is_select_query ast = false →
      dependent_tables ast = []) ∧
    dependent_tables [Statement.query (SetExpr.select ⟨[]⟩)] = [] := by
  constructor
  · intro ast h
    match ast with
    | [] => rfl
    | Statement.query (SetExpr.select s) :: rest =>
      exact absurd h (by simp [head_is_select_query])
    | Statement.query SetExpr.setOther :: rest => rfl
    | Statement.stmtOther :: rest => rfl
  · rfl

/-- Witness for C9: a non-`SELECT` head statement. -/
theorem dependent_tables_spec_witness :
    dependent_tables [Statement.stmtOther] = [] :=
  dependent_tables_spec.1 [Statement.stmtOther] rfl

end Duckhub
